import Mathlib

/-!
# Verification of the FxHasher accumulator (rustc-hash, `src/lib.rs`)

Shallow embedding of the `FxHasher` hash accumulator.  Machine words
(`usize`, 64-bit target) are modelled as `Nat` with explicit reduction
modulo `2 ^ 64`; bytes are `Fin 256`; byte slices are `List (Fin 256)`
in memory order (index 0 first).  The platform is little-endian, so
`from_ne_bytes` interprets the first byte as least significant.

The `while bytes.len() >= size_of::<usize>()` loop of `write` is
embedded with an explicit fuel argument; the initial fuel is the byte
count, which is enough since every iteration consumes eight bytes
(`write64Go_irrel` below shows the fuel amount is irrelevant once it
is at least the byte count).  All definitions are structurally
recursive so that concrete instances compute by `rfl` / `decide`.
-/

/-- A byte (`u8`). -/
abbrev Byte := Fin 256

/-- Rust `x.rotate_left(r)` on a `w`-bit unsigned integer. -/
def rotate_left (w x r : ℕ) : ℕ := ((x <<< r) ||| (x >>> (w - r))) % 2 ^ w

/-- Rust `a.wrapping_mul(b)` on `w`-bit unsigned integers. -/
def wrapping_mul (w a b : ℕ) : ℕ := (a * b) % 2 ^ w

/-- The 64-bit mixing constant `K` (`target_pointer_width = "64"`). -/
def K64 : ℕ := 0x517cc1b727220a95

/-- The 32-bit mixing constant `K` (`target_pointer_width = "32"`). -/
def K32 : ℕ := 0x9e3779b9

/-- `FxHasher::add_to_hash` on a 64-bit target:
`self.hash = self.hash.rotate_left(5).bitxor(i).wrapping_mul(K)`. -/
def add_to_hash64 (h i : ℕ) : ℕ := wrapping_mul 64 ((rotate_left 64 h 5) ^^^ i) K64

/-- `FxHasher::add_to_hash` on a 32-bit target. -/
def add_to_hash32 (h i : ℕ) : ℕ := wrapping_mul 32 ((rotate_left 32 h 5) ^^^ i) K32

/-- `usize::from_ne_bytes` / `u32::from_ne_bytes` / `u16::from_ne_bytes`
on a little-endian target: the first byte in memory is least
significant.  (A `u32`/`u16` value widened with `as usize` keeps the
same numeric value, so the zero-widening is the identity here.) -/
def from_ne_bytes (bs : List Byte) : ℕ := bs.foldr (fun b acc => b.val + 256 * acc) 0

/-- The three trailing `if` blocks of `FxHasher::write` (64-bit
target): a 4-byte chunk, then a 2-byte chunk, then one final byte
(`bytes[0] as usize`). -/
def writeTail (h : ℕ) (bs : List Byte) : ℕ :=
  let p4 := if 4 ≤ bs.length then
      (add_to_hash64 h (from_ne_bytes (bs.take 4)), bs.drop 4) else (h, bs)
  let p2 := if 2 ≤ p4.2.length then
      (add_to_hash64 p4.1 (from_ne_bytes (p4.2.take 2)), p4.2.drop 2) else p4
  if 1 ≤ p2.2.length then add_to_hash64 p2.1 (p2.2.headI).val else p2.1

/-- The `while bytes.len() >= size_of::<usize>()` loop of
`FxHasher::write` (64-bit target), fuel-indexed: each iteration splits
off the first eight bytes and mixes them as a `usize`. -/
def write64Go : ℕ → ℕ → List Byte → ℕ
  | 0, h, bs => writeTail h bs
  | fuel + 1, h, bs =>
      if 8 ≤ bs.length then
        write64Go fuel (add_to_hash64 h (from_ne_bytes (bs.take 8))) (bs.drop 8)
      else writeTail h bs

/-- `FxHasher::write` on a 64-bit target, as a function of the hash
state.  The fuel `bs.length` is enough for the loop to run to
completion. -/
def write64 (h : ℕ) (bs : List Byte) : ℕ := write64Go bs.length h bs

/-- The `FxHasher` struct: a single `usize` state word. -/
structure FxHasher where
  hash : ℕ

/-- `Default for FxHasher`: `FxHasher { hash: 0 }`. -/
def FxHasher.default : FxHasher := ⟨0⟩

/-- `Hasher::write` for `FxHasher`: mix the byte slice into the copied
state and store it back. -/
def FxHasher.write (s : FxHasher) (bs : List Byte) : FxHasher := ⟨write64 s.hash bs⟩

/-- `Hasher::finish` for `FxHasher`: `self.hash as u64` (the identity
on a 64-bit state; the state is not modified). -/
def FxHasher.finish (s : FxHasher) : ℕ := s.hash

/-- `self.hash as u64` on a 32-bit target: zero-extension of a `u32`
value, i.e. the identity on its numeric value. -/
def finish32 (h : ℕ) : ℕ := h

/-- An interaction step with the hasher: a `write` call or a `finish`
call.  Used to state that `finish` is read-only and idempotent. -/
inductive FxOp where
  | wr : List Byte → FxOp
  | fin : FxOp

/-- Execute one interaction step, accumulating the values returned by
`finish` calls. -/
def runStep : FxHasher × List ℕ → FxOp → FxHasher × List ℕ
  | (s, outs), FxOp.wr bs => (s.write bs, outs)
  | (s, outs), FxOp.fin => (s, outs ++ [s.finish])

/-- Execute a sequence of interaction steps from state `s`, returning
the final state and the list of values the `finish` calls returned. -/
def runOps (s : FxHasher) (ops : List FxOp) : FxHasher × List ℕ :=
  ops.foldl runStep (s, [])

/-! ## Specification-side consumption (from the spec's wording)

"repeatedly peels the *largest* available power-of-two-sized prefix
from the remaining bytes, in strictly decreasing order of size —
native-word-sized chunks first, then 4-byte, then 2-byte, then a final
single byte", each chunk being read in native byte order and mixed in
peel order. -/

/-- Modelled from the spec: the largest available power-of-two chunk
width (word width 8) for `r` remaining bytes, `r ≥ 1`. -/
def largestChunk8 (r : ℕ) : ℕ :=
  if 8 ≤ r then 8 else if 4 ≤ r then 4 else if 2 ≤ r then 2 else 1

/-- Modelled from the spec: greedy peeling — take the largest
available power-of-two prefix, repeat on the rest (fuel-indexed; the
number of remaining bytes is enough fuel since every chunk is
nonempty). -/
def specChunksGo : ℕ → List Byte → List (List Byte)
  | _, [] => []
  | 0, _ :: _ => []
  | fuel + 1, b :: t =>
      (b :: t).take (largestChunk8 (b :: t).length) ::
        specChunksGo fuel ((b :: t).drop (largestChunk8 (b :: t).length))

/-- The chunk decomposition of a byte sequence prescribed by the spec. -/
def specChunks8 (bs : List Byte) : List (List Byte) := specChunksGo bs.length bs

/-- Modelled from the spec: consume = mix each peeled chunk's
native-order value into the state, in peel order. -/
def consumeSpec (h : ℕ) (bs : List Byte) : ℕ :=
  ((specChunks8 bs).map from_ne_bytes).foldl add_to_hash64 h

/-- The chunks the three trailing `if` blocks of `write` peel,
as a list (4-byte, then 2-byte, then 1-byte, whichever apply). -/
def tailChunks (bs : List Byte) : List (List Byte) :=
  let p4 := if 4 ≤ bs.length then ([bs.take 4], bs.drop 4) else ([], bs)
  let p2 := if 2 ≤ p4.2.length then (p4.1 ++ [p4.2.take 2], p4.2.drop 2) else p4
  if 1 ≤ p2.2.length then p2.1 ++ [p2.2.take 1] else p2.1

/-- A way of splitting a byte stream into sub-slices is aligned when
the peeling decomposition of the whole stream is exactly the
concatenation of the peeling decompositions of the sub-slices, i.e.
every split point falls on a chunk boundary the peeling algorithm
would choose anyway. -/
def Aligned64 (parts : List (List Byte)) : Prop :=
  specChunks8 parts.flatten = (parts.map specChunks8).flatten

/-! ## A panic-free model of `write` (for the totality claim)

`write` converts each peeled prefix to a fixed-size array with
`try_into().unwrap()`; the conversion fails (and `unwrap` would panic)
exactly when the prefix does not have the expected length.  The
`Option`-valued model below returns `none` wherever the real code
could panic, and `write` also asserts
`size_of::<usize>() <= size_of::<u64>()` on entry. -/

/-- `size_of::<usize>()` on the 64-bit target. -/
def size_of_usize : ℕ := 8

/-- `size_of::<u64>()`. -/
def size_of_u64 : ℕ := 8

/-- `<&[u8] as TryInto<[u8; k]>>::try_into`: succeeds exactly when the
slice has length `k`. -/
def try_into_arr (k : ℕ) (bs : List Byte) : Option (List Byte) :=
  if bs.length = k then some bs else none

/-- The trailing `if` blocks of `write`, with the `try_into().unwrap()`
calls modelled as fallible. -/
def writeTailChecked (h : ℕ) (bs : List Byte) : Option ℕ :=
  let s4 : Option (ℕ × List Byte) :=
    if 4 ≤ bs.length then
      match try_into_arr 4 (bs.take 4) with
      | some arr => some (add_to_hash64 h (from_ne_bytes arr), bs.drop 4)
      | none => none
    else some (h, bs)
  match s4 with
  | none => none
  | some (h4, b4) =>
    let s2 : Option (ℕ × List Byte) :=
      if 2 ≤ b4.length then
        match try_into_arr 2 (b4.take 2) with
        | some arr => some (add_to_hash64 h4 (from_ne_bytes arr), b4.drop 2)
        | none => none
      else some (h4, b4)
    match s2 with
    | none => none
    | some (h2, b2) =>
      if 1 ≤ b2.length then some (add_to_hash64 h2 (b2.headI).val) else some h2

/-- The `write` loop with fallible `try_into().unwrap()` calls. -/
def write64CheckedGo : ℕ → ℕ → List Byte → Option ℕ
  | 0, h, bs => writeTailChecked h bs
  | fuel + 1, h, bs =>
      if 8 ≤ bs.length then
        match try_into_arr 8 (bs.take 8) with
        | some arr => write64CheckedGo fuel (add_to_hash64 h (from_ne_bytes arr)) (bs.drop 8)
        | none => none
      else writeTailChecked h bs

/-- `FxHasher::write` with every potential panic surfaced as `none`:
the entry assertion, then the loop and tail with fallible conversions. -/
def write64Checked (h : ℕ) (bs : List Byte) : Option ℕ :=
  if size_of_usize ≤ size_of_u64 then write64CheckedGo bs.length h bs else none

/-- The 8-byte sequence whose little-endian (native) 64-bit value is
`0x0102030405060708`. -/
def c4bytes : List Byte := [0x08, 0x07, 0x06, 0x05, 0x04, 0x03, 0x02, 0x01]

/-- A concrete aligned split: an 8-byte slice followed by a 2-byte
slice (the split point is a word boundary of the 10-byte stream). -/
def c3parts : List (List Byte) := [[1, 2, 3, 4, 5, 6, 7, 8], [9, 10]]

/-- First run of the full pipeline: fresh default hasher, consume,
finalize. -/
def hashRunA (bs : List Byte) : ℕ := (FxHasher.default.write bs).finish

/-- Second, independent run of the same pipeline. -/
def hashRunB (bs : List Byte) : ℕ := (FxHasher.default.write bs).finish

/-! ## Helper lemmas -/

/-- The fuel of the `write` loop is irrelevant once it is at least the
number of bytes. -/
theorem write64Go_irrel : ∀ (f₁ f₂ h : ℕ) (bs : List Byte),
    bs.length ≤ f₁ → bs.length ≤ f₂ → write64Go f₁ h bs = write64Go f₂ h bs := by
  intro f₁
  induction f₁ with
  | zero =>
    intro f₂ h bs h1 h2
    have hbs : bs = [] := List.length_eq_zero.mp (Nat.le_zero.mp h1)
    subst hbs
    cases f₂ with
    | zero => rfl
    | succ g => simp [write64Go]
  | succ f ih =>
    intro f₂ h bs h1 h2
    cases f₂ with
    | zero =>
      have hbs : bs = [] := List.length_eq_zero.mp (Nat.le_zero.mp h2)
      subst hbs
      simp [write64Go]
    | succ g =>
      by_cases h8 : 8 ≤ bs.length
      · simp only [write64Go, if_pos h8]
        exact ih g _ _ (by simp [List.length_drop]; omega) (by simp [List.length_drop]; omega)
      · simp only [write64Go, if_neg h8]

/-- Unfolding `write` when at least a word of input remains: one loop
iteration. -/
theorem write64_cons8 (h : ℕ) (bs : List Byte) (h8 : 8 ≤ bs.length) :
    write64 h bs = write64 (add_to_hash64 h (from_ne_bytes (bs.take 8))) (bs.drop 8) := by
  show write64Go bs.length h bs = _
  have hk : bs.length = (bs.length - 1) + 1 := by omega
  rw [hk]
  simp only [write64Go, if_pos h8]
  exact write64Go_irrel _ _ _ _ (by simp [List.length_drop]; omega) le_rfl

/-- Unfolding `write` when fewer than a word of input remains: the
loop does not run and only the tail blocks execute. -/
theorem write64_short (h : ℕ) (bs : List Byte) (h8 : bs.length < 8) :
    write64 h bs = writeTail h bs := by
  show write64Go bs.length h bs = _
  rcases hn : bs.length with _ | k
  · rfl
  · rw [hn] at h8
    simp only [write64Go, if_neg (by omega : ¬ 8 ≤ bs.length)]

/-- Every chunk the spec-side peel chooses is nonempty. -/
theorem largestChunk8_pos (r : ℕ) : 1 ≤ largestChunk8 r := by
  unfold largestChunk8; split_ifs <;> omega

/-- The fuel of the greedy spec-side peel is irrelevant once it is at
least the number of bytes. -/
theorem specChunksGo_irrel : ∀ (f₁ f₂ : ℕ) (bs : List Byte),
    bs.length ≤ f₁ → bs.length ≤ f₂ → specChunksGo f₁ bs = specChunksGo f₂ bs := by
  intro f₁
  induction f₁ with
  | zero =>
    intro f₂ bs h1 h2
    have hbs : bs = [] := List.length_eq_zero.mp (Nat.le_zero.mp h1)
    subst hbs
    cases f₂ <;> rfl
  | succ f ih =>
    intro f₂ bs h1 h2
    cases bs with
    | nil => cases f₂ <;> rfl
    | cons b t =>
      cases f₂ with
      | zero => simp at h2
      | succ g =>
        simp only [specChunksGo]
        congr 1
        exact ih g _
          (by
            simp only [List.length_drop, List.length_cons] at h1 ⊢
            have := largestChunk8_pos (t.length + 1); omega)
          (by
            simp only [List.length_drop, List.length_cons] at h2 ⊢
            have := largestChunk8_pos (t.length + 1); omega)

/-- One step of the spec-side peel on a nonempty byte sequence. -/
theorem specChunks8_step (bs : List Byte) (hne : bs ≠ []) :
    specChunks8 bs = bs.take (largestChunk8 bs.length) ::
      specChunks8 (bs.drop (largestChunk8 bs.length)) := by
  obtain ⟨b, t, rfl⟩ := List.exists_cons_of_ne_nil hne
  show specChunksGo (b :: t).length (b :: t) = _
  simp only [List.length_cons, specChunksGo]
  congr 1
  exact specChunksGo_irrel _ _ _
    (by
      simp only [List.length_drop, List.length_cons]
      have := largestChunk8_pos (t.length + 1); omega)
    le_rfl

/-- Chunk-width choice when 4 to 7 bytes remain. -/
theorem largestChunk8_eq_4 (r : ℕ) (h4 : 4 ≤ r) (h8 : r < 8) : largestChunk8 r = 4 := by
  unfold largestChunk8; rw [if_neg (by omega), if_pos h4]

/-- Chunk-width choice when 2 or 3 bytes remain. -/
theorem largestChunk8_eq_2 (r : ℕ) (h2 : 2 ≤ r) (h4 : r < 4) : largestChunk8 r = 2 := by
  unfold largestChunk8; rw [if_neg (by omega), if_neg (by omega), if_pos h2]

/-- Chunk-width choice when a single byte remains. -/
theorem largestChunk8_eq_1 (r : ℕ) (h2 : r < 2) : largestChunk8 r = 1 := by
  unfold largestChunk8; rw [if_neg (by omega), if_neg (by omega), if_neg (by omega)]

/-- The spec-side peel of the empty input is empty. -/
theorem specChunks8_nil : specChunks8 [] = [] := rfl

/-- The spec-side peel of an exhausted input is empty. -/
theorem specChunks8_eq_nil (bs : List Byte) (h : bs.length = 0) : specChunks8 bs = [] := by
  rw [List.length_eq_zero.mp h]; rfl


/-- Below the word width, the spec-side greedy peel produces exactly
the chunks of the three trailing `if` blocks of `write`. -/
theorem specChunks8_short (bs : List Byte) (h8 : bs.length < 8) :
    specChunks8 bs = tailChunks bs := by
  by_cases c4 : 4 ≤ bs.length
  · have hne : bs ≠ [] := List.ne_nil_of_length_pos (by omega)
    rw [specChunks8_step bs hne, largestChunk8_eq_4 _ c4 h8]
    by_cases c2 : 2 ≤ bs.length - 4
    · have hne2 : bs.drop 4 ≠ [] :=
        List.ne_nil_of_length_pos (by rw [List.length_drop]; omega)
      rw [specChunks8_step _ hne2,
        largestChunk8_eq_2 _ (by rw [List.length_drop]; omega)
          (by rw [List.length_drop]; omega)]
      by_cases c1 : 1 ≤ bs.length - 6
      · have hne1 : (bs.drop 4).drop 2 ≠ [] :=
          List.ne_nil_of_length_pos (by simp only [List.length_drop]; omega)
        rw [specChunks8_step _ hne1,
          largestChunk8_eq_1 _ (by simp only [List.length_drop]; omega),
          specChunks8_eq_nil _ (by simp only [List.length_drop]; omega)]
        simp [tailChunks, c4, c2, c1]
      · rw [specChunks8_eq_nil _ (by simp only [List.length_drop]; omega)]
        simp [tailChunks, c4, c2, c1]
    · by_cases c1 : 1 ≤ bs.length - 4
      · have hne1 : bs.drop 4 ≠ [] :=
          List.ne_nil_of_length_pos (by rw [List.length_drop]; omega)
        rw [specChunks8_step _ hne1,
          largestChunk8_eq_1 _ (by rw [List.length_drop]; omega),
          specChunks8_eq_nil _ (by simp only [List.length_drop]; omega)]
        simp [tailChunks, c4, c2, c1]
      · rw [specChunks8_eq_nil _ (by rw [List.length_drop]; omega)]
        simp [tailChunks, c4, c2, c1]
  · by_cases c2 : 2 ≤ bs.length
    · have hne : bs ≠ [] := List.ne_nil_of_length_pos (by omega)
      rw [specChunks8_step bs hne, largestChunk8_eq_2 _ c2 (by omega)]
      by_cases c1 : 1 ≤ bs.length - 2
      · have hne1 : bs.drop 2 ≠ [] :=
          List.ne_nil_of_length_pos (by rw [List.length_drop]; omega)
        rw [specChunks8_step _ hne1,
          largestChunk8_eq_1 _ (by rw [List.length_drop]; omega),
          specChunks8_eq_nil _ (by simp only [List.length_drop]; omega)]
        simp [tailChunks, c4, c2, c1]
      · rw [specChunks8_eq_nil _ (by rw [List.length_drop]; omega)]
        simp [tailChunks, c4, c2, c1]
    · by_cases c1 : 1 ≤ bs.length
      · have hne : bs ≠ [] := List.ne_nil_of_length_pos (by omega)
        rw [specChunks8_step bs hne, largestChunk8_eq_1 _ (by omega),
          specChunks8_eq_nil _ (by rw [List.length_drop]; omega)]
        simp [tailChunks, c4, c2, c1]
      · rw [specChunks8_eq_nil _ (by omega)]
        simp [tailChunks, c4, c2, c1]

/-- Reading the one-byte prefix in native order is reading its first
byte (`bytes[0]`). -/
theorem from_ne_bytes_take_one (l : List Byte) (hl : 1 ≤ l.length) :
    from_ne_bytes (l.take 1) = (l.headI).val := by
  cases l with
  | nil => simp at hl
  | cons b t => simp [from_ne_bytes, List.headI]

/-- The three trailing `if` blocks of `write` mix exactly the values
of the chunks in `tailChunks`, in order. -/
theorem writeTail_fold (h : ℕ) (bs : List Byte) :
    writeTail h bs = ((tailChunks bs).map from_ne_bytes).foldl add_to_hash64 h := by
  by_cases c4 : 4 ≤ bs.length
  · by_cases c2 : 2 ≤ bs.length - 4
    · by_cases c1 : 1 ≤ bs.length - 6
      · simp [writeTail, tailChunks, c4, c2, c1, from_ne_bytes_take_one]
      · simp [writeTail, tailChunks, c4, c2, c1]
    · by_cases c1 : 1 ≤ bs.length - 4
      · simp [writeTail, tailChunks, c4, c2, c1, from_ne_bytes_take_one]
      · simp [writeTail, tailChunks, c4, c2, c1]
  · by_cases c2 : 2 ≤ bs.length
    · by_cases c1 : 1 ≤ bs.length - 2
      · simp [writeTail, tailChunks, c4, c2, c1, from_ne_bytes_take_one]
      · simp [writeTail, tailChunks, c4, c2, c1]
    · by_cases c1 : 1 ≤ bs.length
      · simp [writeTail, tailChunks, c4, c2, c1, from_ne_bytes_take_one]
      · simp [writeTail, tailChunks, c4, c2, c1]

/-- `write` mixes exactly the chunk values of the spec-side greedy
peel, in peel order (auxiliary, by induction on a length bound). -/
theorem write64_eq_consumeSpec_aux : ∀ (n : ℕ) (bs : List Byte) (h : ℕ),
    bs.length ≤ n → write64 h bs = consumeSpec h bs := by
  intro n
  induction n with
  | zero =>
    intro bs h hl
    have hbs : bs = [] := List.length_eq_zero.mp (Nat.le_zero.mp hl)
    subst hbs
    rfl
  | succ n ih =>
    intro bs h hl
    by_cases h8 : 8 ≤ bs.length
    · rw [write64_cons8 h bs h8,
        ih (bs.drop 8) _ (by rw [List.length_drop]; omega)]
      unfold consumeSpec
      rw [specChunks8_step bs (List.ne_nil_of_length_pos (by omega))]
      have hlc : largestChunk8 bs.length = 8 := by unfold largestChunk8; rw [if_pos h8]
      rw [hlc]
      simp
    · rw [write64_short h bs (by omega), writeTail_fold]
      unfold consumeSpec
      rw [specChunks8_short bs (by omega)]

/-- `write` mixes exactly the chunk values of the spec-side greedy
peel, in peel order. -/
theorem write64_eq_consumeSpec (h : ℕ) (bs : List Byte) :
    write64 h bs = consumeSpec h bs :=
  write64_eq_consumeSpec_aux bs.length bs h le_rfl

/-- C2: `write` peels the largest available power-of-two-sized prefix
repeatedly — word-sized chunks first, then 4, 2, and a final single
byte — reads each peeled prefix in native byte order, widens it to the
word width, and mixes each value in peel order. -/
theorem fx_c2_write_peels : ∀ (h : ℕ) (bs : List Byte),
    write64 h bs = consumeSpec h bs :=
  write64_eq_consumeSpec

/-- Folding `write` over the sub-slices mixes the chunk values of the
sub-slices' own peels, in order. -/
theorem foldl_write64_flatten : ∀ (parts : List (List Byte)) (h : ℕ),
    parts.foldl write64 h
      = (((parts.map specChunks8).flatten).map from_ne_bytes).foldl add_to_hash64 h := by
  intro parts
  induction parts with
  | nil => intro h; rfl
  | cons p ps ih =>
    intro h
    show ps.foldl write64 (write64 h p) = _
    rw [ih, write64_eq_consumeSpec]
    unfold consumeSpec
    simp [List.map_append, List.foldl_append]

/-- Splitting at a multiple of the word size is aligned (auxiliary,
by induction on a length bound). -/
theorem specChunks8_append_aux : ∀ (n : ℕ) (a b : List Byte),
    a.length ≤ n → a.length % 8 = 0 →
    specChunks8 (a ++ b) = specChunks8 a ++ specChunks8 b := by
  intro n
  induction n with
  | zero =>
    intro a b h1 _
    have ha : a = [] := List.length_eq_zero.mp (Nat.le_zero.mp h1)
    subst ha
    simp [specChunks8_nil]
  | succ n ih =>
    intro a b h1 h2
    rcases Nat.eq_zero_or_pos a.length with h0 | hpos
    · have ha : a = [] := List.length_eq_zero.mp h0
      subst ha
      simp [specChunks8_nil]
    · have h8 : 8 ≤ a.length := by omega
      have hab : 8 ≤ (a ++ b).length := by rw [List.length_append]; omega
      rw [specChunks8_step (a ++ b) (List.ne_nil_of_length_pos (by rw [List.length_append]; omega)),
        specChunks8_step a (List.ne_nil_of_length_pos (by omega))]
      have hl1 : largestChunk8 (a ++ b).length = 8 := by
        unfold largestChunk8; rw [if_pos hab]
      have hl2 : largestChunk8 a.length = 8 := by
        unfold largestChunk8; rw [if_pos h8]
      rw [hl1, hl2, List.take_append_of_le_length h8, List.drop_append_of_le_length h8,
        ih (a.drop 8) b (by rw [List.length_drop]; omega) (by rw [List.length_drop]; omega)]
      simp

/-- C3: consuming a byte stream in one `write` call equals consuming
it as a sequence of sub-slices, provided every split point falls on a
chunk boundary the peeling algorithm would choose anyway (`Aligned64`);
in particular every split at a multiple of the word size is such a
boundary. -/
theorem fx_c3_aligned_split : (∀ (h : ℕ) (parts : List (List Byte)),
      Aligned64 parts → parts.foldl write64 h = write64 h parts.flatten)
    ∧ (∀ (a b : List Byte), a.length % 8 = 0 →
      specChunks8 (a ++ b) = specChunks8 a ++ specChunks8 b) := by
  constructor
  · intro h parts hA
    rw [foldl_write64_flatten, ← hA, write64_eq_consumeSpec]
    rfl
  · intro a b h
    exact specChunks8_append_aux a.length a b le_rfl h

/-- Witness for C3: the concrete aligned split `c3parts` of a 10-byte
stream at its word boundary composes. -/
theorem fx_c3_aligned_split_witness :
    Aligned64 c3parts ∧ c3parts.foldl write64 0 = write64 0 c3parts.flatten :=
  ⟨rfl, fx_c3_aligned_split.1 0 c3parts rfl⟩

/-- The tail blocks peel at most three chunks, none of them
word-sized. -/
theorem tailChunks_count (bs : List Byte) :
    ((tailChunks bs).map List.length).count 8 = 0 ∧ (tailChunks bs).length ≤ 3 := by
  by_cases c4 : 4 ≤ bs.length
  · by_cases c2 : 2 ≤ bs.length - 4
    · by_cases c1 : 1 ≤ bs.length - 6
      · constructor
        · rw [List.count_eq_zero]
          simp [tailChunks, c4, c2, c1, List.length_take]
        · simp [tailChunks, c4, c2, c1]
      · constructor
        · rw [List.count_eq_zero]
          simp [tailChunks, c4, c2, c1, List.length_take]
        · simp [tailChunks, c4, c2, c1]
    · by_cases c1 : 1 ≤ bs.length - 4
      · constructor
        · rw [List.count_eq_zero]
          simp [tailChunks, c4, c2, c1, List.length_take]
        · simp [tailChunks, c4, c2, c1]
      · constructor
        · rw [List.count_eq_zero]
          simp [tailChunks, c4, c2, c1, List.length_take]
        · simp [tailChunks, c4, c2, c1]
  · by_cases c2 : 2 ≤ bs.length
    · by_cases c1 : 1 ≤ bs.length - 2
      · constructor
        · rw [List.count_eq_zero]
          simp [tailChunks, c4, c2, c1, List.length_take]
        · simp [tailChunks, c4, c2, c1]
      · constructor
        · rw [List.count_eq_zero]
          simp [tailChunks, c4, c2, c1, List.length_take]
        · simp [tailChunks, c4, c2, c1]
    · by_cases c1 : 1 ≤ bs.length
      · constructor
        · rw [List.count_eq_zero]
          simp [tailChunks, c4, c2, c1, List.length_take]
        · simp [tailChunks, c4, c2, c1]
      · constructor
        · rw [List.count_eq_zero]
          simp [tailChunks, c4, c2, c1]
        · simp [tailChunks, c4, c2, c1]

/-- Chunk counting for the spec-side peel (auxiliary, by induction on
a length bound): exactly `length / 8` word-sized chunks, and at most
three more. -/
theorem specChunks8_count_aux : ∀ (n : ℕ) (bs : List Byte), bs.length ≤ n →
    ((specChunks8 bs).map List.length).count 8 = bs.length / 8
    ∧ (specChunks8 bs).length ≤ bs.length / 8 + 3 := by
  intro n
  induction n with
  | zero =>
    intro bs hl
    have hbs : bs = [] := List.length_eq_zero.mp (Nat.le_zero.mp hl)
    subst hbs
    simp [specChunks8_nil]
  | succ n ih =>
    intro bs hl
    by_cases h8 : 8 ≤ bs.length
    · rw [specChunks8_step bs (List.ne_nil_of_length_pos (by omega))]
      have hlc : largestChunk8 bs.length = 8 := by unfold largestChunk8; rw [if_pos h8]
      rw [hlc]
      obtain ⟨ihc, ihl⟩ := ih (bs.drop 8) (by rw [List.length_drop]; omega)
      have htk : (bs.take 8).length = 8 := by rw [List.length_take]; omega
      constructor
      · rw [List.map_cons, htk, List.count_cons_self]
        rw [List.length_drop] at ihc
        omega
      · rw [List.length_cons]
        rw [List.length_drop] at ihl
        omega
    · rw [specChunks8_short bs (by omega)]
      obtain ⟨hc, hlen⟩ := tailChunks_count bs
      constructor
      · rw [hc]
        omega
      · omega

/-- C8: a single `write` call mixes exactly the chunk values of the
peel, which has exactly `floor(N / 8)` word-sized chunks and at most
three further tail chunks, so at most `N / 8 + 3` mixing operations in
total. -/
theorem fx_c8_mix_count : ∀ (h : ℕ) (bs : List Byte),
    write64 h bs = ((specChunks8 bs).map from_ne_bytes).foldl add_to_hash64 h
    ∧ ((specChunks8 bs).map List.length).count 8 = bs.length / 8
    ∧ (specChunks8 bs).length ≤ bs.length / 8 + 3 := by
  intro h bs
  obtain ⟨hc, hl⟩ := specChunks8_count_aux bs.length bs le_rfl
  exact ⟨write64_eq_consumeSpec h bs, hc, hl⟩

/-- The final state of a run does not depend on the finish-output
accumulator. -/
theorem runStep_fst_outs : ∀ (ops : List FxOp) (s : FxHasher) (o1 o2 : List ℕ),
    (ops.foldl runStep (s, o1)).1 = (ops.foldl runStep (s, o2)).1 := by
  intro ops
  induction ops with
  | nil => intro s o1 o2; rfl
  | cons op t ih =>
    intro s o1 o2
    cases op with
    | wr bs => simp only [List.foldl_cons, runStep]; exact ih _ _ _
    | fin => simp only [List.foldl_cons, runStep]; exact ih _ _ _

/-- C7: `finish` returns the state zero-extended to 64 bits (the
identity for a 64-bit state, upper bits zero for a 32-bit state), does
not modify the state, is idempotent — two consecutive `finish` calls
return identical values — and mixing after a `finish` call behaves
exactly as if `finish` had not been called. -/
theorem fx_c7_finish_readonly : ∀ s : FxHasher, s.hash < 2 ^ 64 →
    (s.finish = s.hash ∧ s.finish < 2 ^ 64)
    ∧ (runOps s [FxOp.fin, FxOp.fin]).2 = [s.finish, s.finish]
    ∧ (runOps s [FxOp.fin, FxOp.fin]).1 = s
    ∧ (∀ ops : List FxOp, (runOps s (FxOp.fin :: ops)).1 = (runOps s ops).1)
    ∧ (∀ h32 : ℕ, h32 < 2 ^ 32 → finish32 h32 = h32 ∧ finish32 h32 >>> 32 = 0) := by
  intro s hs
  refine ⟨⟨rfl, hs⟩, rfl, rfl, ?_, ?_⟩
  · intro ops
    exact runStep_fst_outs ops s _ _
  · intro h32 h32lt
    refine ⟨rfl, ?_⟩
    show h32 >>> 32 = 0
    rw [Nat.shiftRight_eq_div_pow]
    exact Nat.div_eq_of_lt h32lt

/-- Witness for C7 at the concrete state 5. -/
theorem fx_c7_finish_readonly_witness :
    (FxHasher.mk 5).hash < 2 ^ 64
    ∧ (((FxHasher.mk 5).finish = (FxHasher.mk 5).hash ∧ (FxHasher.mk 5).finish < 2 ^ 64)
      ∧ (runOps (FxHasher.mk 5) [FxOp.fin, FxOp.fin]).2
          = [(FxHasher.mk 5).finish, (FxHasher.mk 5).finish]
      ∧ (runOps (FxHasher.mk 5) [FxOp.fin, FxOp.fin]).1 = FxHasher.mk 5
      ∧ (∀ ops : List FxOp,
          (runOps (FxHasher.mk 5) (FxOp.fin :: ops)).1 = (runOps (FxHasher.mk 5) ops).1)
      ∧ (∀ h32 : ℕ, h32 < 2 ^ 32 → finish32 h32 = h32 ∧ finish32 h32 >>> 32 = 0)) :=
  ⟨by decide, fx_c7_finish_readonly (FxHasher.mk 5) (by decide)⟩

/-- The fallible model of the tail blocks never fails and agrees with
the total model. -/
theorem writeTailChecked_eq (h : ℕ) (bs : List Byte) :
    writeTailChecked h bs = some (writeTail h bs) := by
  by_cases c4 : 4 ≤ bs.length
  · by_cases c2 : 2 ≤ bs.length - 4
    · by_cases c1 : 1 ≤ bs.length - 6
      · simp [writeTailChecked, writeTail, try_into_arr, c4, c2, c1, List.length_take]
      · simp [writeTailChecked, writeTail, try_into_arr, c4, c2, c1, List.length_take]
    · by_cases c1 : 1 ≤ bs.length - 4
      · simp [writeTailChecked, writeTail, try_into_arr, c4, c2, c1, List.length_take]
      · simp [writeTailChecked, writeTail, try_into_arr, c4, c2, c1, List.length_take]
  · by_cases c2 : 2 ≤ bs.length
    · by_cases c1 : 1 ≤ bs.length - 2
      · simp [writeTailChecked, writeTail, try_into_arr, c4, c2, c1, List.length_take]
      · simp [writeTailChecked, writeTail, try_into_arr, c4, c2, c1, List.length_take]
    · by_cases c1 : 1 ≤ bs.length
      · simp [writeTailChecked, writeTail, try_into_arr, c4, c2, c1, List.length_take]
      · simp [writeTailChecked, writeTail, try_into_arr, c4, c2, c1, List.length_take]

/-- The fallible model of the `write` loop never fails and agrees with
the total model. -/
theorem write64CheckedGo_eq : ∀ (f h : ℕ) (bs : List Byte),
    write64CheckedGo f h bs = some (write64Go f h bs) := by
  intro f
  induction f with
  | zero => intro h bs; exact writeTailChecked_eq h bs
  | succ f ih =>
    intro h bs
    by_cases h8 : 8 ≤ bs.length
    · simp only [write64CheckedGo, write64Go, if_pos h8]
      have ht : try_into_arr 8 (bs.take 8) = some (bs.take 8) := by
        unfold try_into_arr
        rw [if_pos (by rw [List.length_take]; omega)]
      rw [ht]
      exact ih _ _
    · simp only [write64CheckedGo, write64Go, if_neg h8]
      exact writeTailChecked_eq h bs

/-- C9: every public operation is total.  The entry assertion
`size_of::<usize>() <= size_of::<u64>()` holds, and `write` with every
`try_into().unwrap()` modelled as fallible never fails: it always
returns the value of the total model. -/
theorem fx_c9_total : ∀ (h : ℕ) (bs : List Byte),
    size_of_usize ≤ size_of_u64 ∧ write64Checked h bs = some (write64 h bs) := by
  intro h bs
  refine ⟨by decide, ?_⟩
  unfold write64Checked
  rw [if_pos (by decide : size_of_usize ≤ size_of_u64)]
  exact write64CheckedGo_eq _ _ _

/-- C1: `add_to_hash` replaces the state with
`(rotate_left(state, 5) XOR value) * K mod 2 ^ wordwidth`, with
`K = 0x517cc1b727220a95` on 64-bit words and `K = 0x9e3779b9` on
32-bit words, and the new state is again a word-sized value. -/
theorem fx_c1_add_to_hash_mixes : ∀ s v : ℕ,
    add_to_hash64 s v = ((rotate_left 64 s 5) ^^^ v) * K64 % 2 ^ 64
    ∧ add_to_hash32 s v = ((rotate_left 32 s 5) ^^^ v) * K32 % 2 ^ 32
    ∧ K64 = 0x517cc1b727220a95 ∧ K32 = 0x9e3779b9
    ∧ add_to_hash64 s v < 2 ^ 64 ∧ add_to_hash32 s v < 2 ^ 32 := by
  intro s v
  exact ⟨rfl, rfl, rfl, rfl, Nat.mod_lt _ (by norm_num), Nat.mod_lt _ (by norm_num)⟩

/-- C4: on a 64-bit target, initialize → write the 8-byte sequence
with native value `0x0102030405060708` → finish gives exactly
`(rotate_left(0, 5) XOR 0x0102030405060708) * K mod 2 ^ 64`. -/
theorem fx_c4_regression_value :
    (FxHasher.default.write c4bytes).finish
      = ((rotate_left 64 0 5) ^^^ 0x0102030405060708) * K64 % 2 ^ 64
    ∧ from_ne_bytes c4bytes = 0x0102030405060708 :=
  ⟨by decide, by decide⟩

/-- C5: hashing the same byte sequence twice, each time from a fresh
default accumulator, yields the same 64-bit value: the pipeline is a
deterministic function of the input bytes alone. -/
theorem fx_c5_deterministic : ∀ bs : List Byte, hashRunA bs = hashRunB bs :=
  fun _ => rfl

/-- C6: the default accumulator state is zero, and finalizing it —
immediately or after consuming the empty sequence, which peels no
chunks — returns 0. -/
theorem fx_c6_empty_zero :
    FxHasher.default.hash = 0
    ∧ FxHasher.default.finish = 0
    ∧ (FxHasher.default.write []).finish = 0
    ∧ specChunks8 [] = [] :=
  ⟨rfl, rfl, rfl, rfl⟩

/-- C10: writing an empty byte slice leaves any accumulator state
bit-for-bit unchanged. -/
theorem fx_c10_write_nil_id : ∀ s : FxHasher, s.write [] = s :=
  fun _ => rfl
